import Mathlib

/-!
Verification development for the MCQ study tool's ingestion and answer-checking core.

Strings are modelled as lists of Unicode code points (`Str`); JavaScript string
indices are therefore code-point indices (the sources never index into strings
containing astral characters).  JavaScript `toLowerCase`/`toUpperCase` and the
case-insensitive regex flag are modelled on the ASCII range, which covers every
character the embedded patterns compare against.  The regex whitespace class
`\s` (also used by `String.prototype.trim`) is modelled by `isJsWhitespace`,
covering the full ECMAScript WhiteSpace and LineTerminator sets.
-/

namespace S2P

abbrev Str := List Char

def str (s : String) : Str := s.data

/-- ECMAScript `\s` character class (WhiteSpace and LineTerminator), by code
point: tab, LF, VT, FF, CR, space, NBSP, Ogham space, the U+2000-200A range,
LS, PS, NNBSP, MMSP, ideographic space and BOM. -/
def isJsWhitespace (c : Char) : Bool :=
  c.toNat = 0x20 || c.toNat = 0x09 || c.toNat = 0x0a || c.toNat = 0x0b ||
  c.toNat = 0x0c || c.toNat = 0x0d || c.toNat = 0xa0 || c.toNat = 0x1680 ||
  (0x2000 ≤ c.toNat && c.toNat ≤ 0x200a) ||
  c.toNat = 0x2028 || c.toNat = 0x2029 || c.toNat = 0x202f ||
  c.toNat = 0x205f || c.toNat = 0x3000 || c.toNat = 0xfeff

/-- ECMAScript LineTerminator set (where `^`/`$` match under the `m` flag). -/
def isLineTerm (c : Char) : Bool :=
  c.toNat = 0x0a || c.toNat = 0x0d || c.toNat = 0x2028 || c.toNat = 0x2029

/-- ASCII-range model of JS `toLowerCase` / case-insensitive canonicalisation. -/
def lowerAscii (c : Char) : Char :=
  if 65 ≤ c.toNat ∧ c.toNat ≤ 90 then Char.ofNat (c.toNat + 32) else c

/-- ASCII-range model of JS `toUpperCase`. -/
def upperAscii (c : Char) : Char :=
  if 97 ≤ c.toNat ∧ c.toNat ≤ 122 then Char.ofNat (c.toNat - 32) else c

def lowerStr (s : Str) : Str := s.map lowerAscii

/-- `String.prototype.trim`. -/
def trimJS (s : Str) : Str :=
  ((s.dropWhile isJsWhitespace).reverse.dropWhile isJsWhitespace).reverse

/-- Case-insensitive literal matching of a (lowercase) pattern against the head
of a string; returns the remainder on success.  Models the letter-by-letter
matching a case-insensitive regex performs on a literal word. -/
def stripCI : Str → Str → Option Str
  | [], s => some s
  | _ :: _, [] => none
  | p :: ps, c :: cs => if lowerAscii c = p then stripCI ps cs else none

def optionWord : Str := str "option"

/-- Regex class `[A-D]` under the `i` flag: resolved index `code(upper) - code(A)`. -/
def letterADIdx (c : Char) : Option Nat :=
  if 65 ≤ (upperAscii c).toNat ∧ (upperAscii c).toNat ≤ 68 then
    some ((upperAscii c).toNat - 65)
  else none

def isLetterAD (c : Char) : Bool := (letterADIdx c).isSome

/-- Regex class `[1-4]`: resolved index `digit - 1`. -/
def digit14Idx (c : Char) : Option Nat :=
  if 49 ≤ c.toNat ∧ c.toNat ≤ 52 then some (c.toNat - 49) else none

def isDigit14 (c : Char) : Bool := (digit14Idx c).isSome

/-- Regex class `\d`. -/
def isDigit09 (c : Char) : Bool := 48 ≤ c.toNat ∧ c.toNat ≤ 57

/-- Full-string test `/^Option\s?[A-D]$/i`. -/
def fullOptionLetter (t : Str) : Bool :=
  match stripCI optionWord t with
  | some [c] => isLetterAD c
  | some [w, c] => isJsWhitespace w && isLetterAD c
  | _ => false

/-- Full-string test `/^Option\s?[1-4]$/i`. -/
def fullOptionDigit (t : Str) : Bool :=
  match stripCI optionWord t with
  | some [c] => isDigit14 c
  | some [w, c] => isJsWhitespace w && isDigit14 c
  | _ => false

/-- Attempt of `/Option\s?([A-D])/i` anchored at the head of `s`; returns the
captured letter.  `\s?` is greedy with backtracking, but the whitespace and
letter classes are disjoint so the backtrack never succeeds. -/
def matchAtLetter (s : Str) : Option Char :=
  match stripCI optionWord s with
  | none => none
  | some [] => none
  | some (c :: rest2) =>
    if isJsWhitespace c then
      match rest2 with
      | [] => none
      | d :: _ => if isLetterAD d then some d else none
    else if isLetterAD c then some c else none

/-- Attempt of `/Option\s?(\d)/i` anchored at the head of `s`. -/
def matchAtDigit (s : Str) : Option Char :=
  match stripCI optionWord s with
  | none => none
  | some [] => none
  | some (c :: rest2) =>
    if isJsWhitespace c then
      match rest2 with
      | [] => none
      | d :: _ => if isDigit09 d then some d else none
    else if isDigit09 c then some c else none

/-- `String.prototype.match(/Option\s?([A-D])/i)`: first match, left to right. -/
def searchLetter : Str → Option Char
  | [] => none
  | c :: rest =>
    match matchAtLetter (c :: rest) with
    | some d => some d
    | none => searchLetter rest

/-- `String.prototype.match(/Option\s?(\d)/i)`: first match, left to right. -/
def searchDigit : Str → Option Char
  | [] => none
  | c :: rest =>
    match matchAtDigit (c :: rest) with
    | some d => some d
    | none => searchDigit rest

/-- The `correctIndex` computation shared verbatim by the practice page and the
question card: `-1`, overwritten by `matchLetter[1].toUpperCase().charCodeAt(0) - 65`
or else by `parseInt(matchNumber[1]) - 1`. -/
def labeledIndex (t : Str) : Int :=
  match searchLetter t with
  | some c => ((upperAscii c).toNat : Int) - 65
  | none =>
    match searchDigit t with
    | some d => ((d.toNat : Int) - 48) - 1
    | none => -1

/-- Full-string test `/^[A-D]$/i` together with the resolved index. -/
def bareIndex? (t : Str) : Option Nat :=
  match t with
  | [c] => letterADIdx c
  | _ => none

/-- JS array indexing `options[index]` for a possibly negative index:
`undefined` (here `none`) when out of range. -/
def listGetI (l : List Str) (i : Int) : Option Str :=
  if i < 0 then none else l.get? i.toNat

/-- Answer-correctness check of the practice page (Practice stats logic):
the same branch structure is used for the per-question stats, the current
question and the question list grid.  `ans` is the stored selected option. -/
def practiceIsCorrect (correctAnswer : Str) (options : List Str) (ans : Str) : Bool :=
  if fullOptionLetter (trimJS correctAnswer) || fullOptionDigit (trimJS correctAnswer) then
    decide (0 ≤ labeledIndex (trimJS correctAnswer)) &&
      decide (listGetI options (labeledIndex (trimJS correctAnswer)) = some ans)
  else
    match bareIndex? (trimJS correctAnswer) with
    | some i => decide (options.get? i = some ans)
    | none => lowerStr (trimJS ans) == lowerStr (trimJS correctAnswer)

/-- `isOptionCorrect(optionText, index)` from the question card; `index` is the
position of the rendered option. -/
def isOptionCorrect (correctAnswer : Str) (optionText : Str) (index : Int) : Bool :=
  if fullOptionLetter (trimJS correctAnswer) || fullOptionDigit (trimJS correctAnswer) then
    decide (index = labeledIndex (trimJS correctAnswer))
  else
    match bareIndex? (trimJS correctAnswer) with
    | some i => decide (index = (i : Int))
    | none => lowerStr (trimJS optionText) == lowerStr (trimJS correctAnswer)

/-- Spec-side reading of the claimed labeled-option strategy: the text is
`Option`, an optional whitespace, and a letter A-D or a digit 1-4
(case-insensitive); the letter resolves to `code(upper) - code(A)`, the digit
to `digit - 1`. -/
def claimLabeledIndex (t : Str) : Option Nat :=
  match stripCI optionWord t with
  | none => none
  | some [c] => (letterADIdx c).orElse (fun _ => digit14Idx c)
  | some [w, c] =>
    if isJsWhitespace w then (letterADIdx c).orElse (fun _ => digit14Idx c)
    else none
  | some _ => none

/-- Spec-side resolver stated from the claim: the three strategies in order,
first match winning, each index strategy succeeding iff the option at the
computed index equals the selected text exactly, and the literal strategy
comparing case-insensitively after trimming both sides. -/
def resolveClaim (correctAnswer : Str) (options : List Str) (selected : Str) : Bool :=
  match claimLabeledIndex (trimJS correctAnswer) with
  | some i => decide (options.get? i = some selected)
  | none =>
    match bareIndex? (trimJS correctAnswer) with
    | some i => decide (options.get? i = some selected)
    | none => lowerStr (trimJS selected) == lowerStr (trimJS correctAnswer)

def jsIndexOfAux : List Str → Str → Nat → Int
  | [], _, _ => -1
  | a :: rest, x, i => if a = x then (i : Int) else jsIndexOfAux rest x (i + 1)

/-- JS `Array.prototype.indexOf` (strict equality, `-1` when absent). -/
def jsIndexOf (l : List Str) (x : Str) : Int := jsIndexOfAux l x 0

/-- `isSelectedCorrect` of the question card:
`idx = question.options.indexOf(selectedOption); isOptionCorrect(selectedOption, idx)`. -/
def isSelectedCorrect (correctAnswer : Str) (options : List Str) (selected : Str) : Bool :=
  isOptionCorrect correctAnswer selected (jsIndexOf options selected)

/-! ## Data model

A parsed CSV row is a JS object: an ordered association of (distinct) header
strings to cell strings.  `none` on lookup models an absent property
(`undefined`).  String fields that the sources may leave `undefined` are
modelled with the empty string, matching the `x || ''` normalisations the code
applies; no claim distinguishes `undefined` from `''`. -/

abbrev Row := List (Str × Str)

structure Question where
  id : Str
  no : Str
  question : Str
  options : List Str
  correctAnswer : Str
  explanation : Str
  topic : Str
  pageNo : Str
  deriving DecidableEq, Repr

structure Topic where
  id : Str
  name : Str
  questions : List Question
  deriving DecidableEq, Repr

/-- JS property access `row[key]` (exact key). -/
def rowGetExact (row : Row) (k : Str) : Option Str :=
  (row.find? (fun p => p.1 = k)).map (·.2)

/-- JS truthiness of an optional string value: `undefined` and `''` are falsy. -/
def truthy (o : Option Str) : Option Str :=
  match o with
  | some v => if v = [] then none else some v
  | none => none

/-- JS `hay.includes(needle)` (substring containment). -/
def containsSub (hay needle : Str) : Bool :=
  match hay with
  | [] => needle == []
  | _ :: rest => needle.isPrefixOf hay || containsSub rest needle

def questionWord : Str := str "question"

/-- `getVal(target)` of the CSV importer: exact trimmed case-insensitive header
match first, else a fuzzy `includes` match — except that when the target is
`question`, headers containing `no`, `id` or `number` are excluded from the
fuzzy pass.  (Keys of a JS object are distinct, so finding the first matching
key and reading its value is one association-list lookup.) -/
def getVal (row : Row) (target : Str) : Option Str :=
  match row.find? (fun p => lowerStr (trimJS p.1) == lowerStr target) with
  | some p => some p.2
  | none =>
    match row.find? (fun p =>
        let keyLower := lowerStr p.1
        let targetLower := lowerStr target
        if targetLower == questionWord &&
            (containsSub keyLower (str "no") || containsSub keyLower (str "id") ||
             containsSub keyLower (str "number")) then
          false
        else
          containsSub keyLower targetLower) with
    | some p => some p.2
    | none => none

/-! ## Option extraction (parseCSV strategies 1-4) -/

def optionLetterLabels : List Str :=
  [str "Option A", str "Option B", str "Option C", str "Option D"]

def optionNumberLabels : List Str :=
  [str "Option1", str "Option2", str "Option3", str "Option4"]

def letterHeaders : List Str := [str "A", str "B", str "C", str "D"]

/-- One strategy pass with exact-key access: `if (row[optKey]) options.push(row[optKey])`
over the given keys in order (truthy values only). -/
def stratVals (keys : List Str) (row : Row) : List Str :=
  keys.filterMap (fun k => truthy (rowGetExact row k))

/-- The last-resort pass: `const val = getVal(optKey); if (val) options.push(val)`. -/
def stratFuzzyVals (keys : List Str) (row : Row) : List Str :=
  keys.filterMap (fun k => truthy (getVal row k))

/-- The four option-extraction strategies of `parseCSV`, in source order.
Strategy 2 runs when `!foundStandardOptions || options.length === 0`, which is
exactly "strategy 1 collected nothing"; strategies 3 and 4 each run when the
list is still empty. -/
def extractOptions (row : Row) : List Str :=
  let o1 := stratVals optionLetterLabels row
  let o2 := if o1 = [] then stratVals optionNumberLabels row else o1
  let o3 := if o2 = [] then stratVals letterHeaders row else o2
  if o3 = [] then stratFuzzyVals optionLetterLabels row else o3

/-- `options.filter(o => o && o.toString().trim().length > 0)`. -/
def discardBlank (options : List Str) : List Str :=
  options.filter (fun o => decide (trimJS o ≠ []))

/-- The seen-set deduplication of `parseCSV`: keep an option iff its
`trim().toLowerCase()` normalisation has not appeared earlier. -/
def dedupTrimCIAux (seen : List Str) : List Str → List Str
  | [] => []
  | o :: rest =>
    if lowerStr (trimJS o) ∈ seen then dedupTrimCIAux seen rest
    else o :: dedupTrimCIAux (lowerStr (trimJS o) :: seen) rest

def dedupTrimCI (options : List Str) : List Str := dedupTrimCIAux [] options

/-- The seen-set deduplication of `validateAndCleanQuestions` (routes.ts):
elements are already trimmed there, so the key is `toLowerCase()` alone. -/
def dedupCIAux (seen : List Str) : List Str → List Str
  | [] => []
  | o :: rest =>
    if lowerStr o ∈ seen then dedupCIAux seen rest
    else o :: dedupCIAux (lowerStr o :: seen) rest

def dedupCI (options : List Str) : List Str := dedupCIAux [] options

/-- Options surviving a row: extracted, blank-discarded, deduplicated. -/
def survivingOptions (row : Row) : List Str :=
  dedupTrimCI (discardBlank (extractOptions row))

/-- Spec-side reading of the claimed fallback order: the four strategies as a
list, in the claimed order. -/
def specOptionStrategies (row : Row) : List (List Str) :=
  [stratVals optionLetterLabels row, stratVals optionNumberLabels row,
   stratVals letterHeaders row, stratFuzzyVals optionLetterLabels row]

/-- Spec-side option extraction: the first strategy yielding at least one
value wins (all collected values are non-empty strings by construction). -/
def specExtractOptions (row : Row) : List Str :=
  ((specOptionStrategies row).find? (fun l => decide (l ≠ []))).getD []

/-- `sourceName.replace(/\.(csv|txt|xlsx|xls)$/i, '')`. -/
def stripExt (s : Str) : Str :=
  let low := lowerStr s
  if (str ".csv").isSuffixOf low then s.take (s.length - 4)
  else if (str ".txt").isSuffixOf low then s.take (s.length - 4)
  else if (str ".xlsx").isSuffixOf low then s.take (s.length - 5)
  else if (str ".xls").isSuffixOf low then s.take (s.length - 4)
  else s

/-- JS `a || b` for string-valued chains. -/
def jsOr (a : Option Str) (b : Str) : Str := (truthy a).getD b

/-- `questionMissing row` iff `getVal('Question')` is absent or falsy
(`if (!questionText)`). -/
def questionMissing (row : Row) : Bool := (truthy (getVal row (str "Question"))).isNone

/-- `String(index + 1)` used as the default question number. -/
def natStr (n : Nat) : Str := (toString n).data

/-- The row normaliser of `parseCSV`: one row to a `Question`, or `none` for a
skipped row.  `row['Question No.']` and the other direct accesses mirror the
source's `row[...] || getVal(...)` fallback chains.  `uuidv4()` is modelled by
an empty placeholder id (no claim depends on id values); the CSV path never
sets `pageNo`, so it gets the empty-string default. -/
def normalizeRow (row : Row) (index : Nat) (sourceName : Str) : Option Question :=
  match truthy (getVal row (str "Question")) with
  | none => none
  | some questionText =>
    if (survivingOptions row).length < 2 then none
    else
      some
        { id := []
          no := jsOr (rowGetExact row (str "Question No.")) (natStr (index + 1))
          question := questionText
          options := survivingOptions row
          correctAnswer :=
            (truthy (rowGetExact row (str "Correct Answer")) <|>
             truthy (getVal row (str "Correct Answer")) <|>
             truthy (getVal row (str "Correct")) <|>
             truthy (getVal row (str "Answer"))).getD ((survivingOptions row).headD [])
          explanation :=
            (truthy (rowGetExact row (str "Explanation")) <|>
             truthy (getVal row (str "Explanation"))).getD []
          topic := jsOr (rowGetExact row (str "Topic"))
            (jsOr (getVal row (str "Topic")) (stripExt sourceName))
          pageNo := [] }

/-- `results.data.forEach((row, index) => ...)`: collects the produced
questions in order and counts skipped rows. -/
def processRowsFrom (sourceName : Str) : List Row → Nat → List Question × Nat
  | [], _ => ([], 0)
  | row :: rest, i =>
    match normalizeRow row i sourceName with
    | some q =>
      (q :: (processRowsFrom sourceName rest (i + 1)).1,
       (processRowsFrom sourceName rest (i + 1)).2)
    | none =>
      ((processRowsFrom sourceName rest (i + 1)).1,
       (processRowsFrom sourceName rest (i + 1)).2 + 1)

def processRows (rows : List Row) (sourceName : Str) : List Question × Nat :=
  processRowsFrom sourceName rows 0

/-- `q.topic || "General"`: the grouping key. -/
def topicKey (q : Question) : Str := if q.topic = [] then str "General" else q.topic

/-- Appending a question into the `questionsByTopic` record (string keys keep
insertion order; a fresh key is appended). -/
def insertGrouped : List (Str × List Question) → Str → Question → List (Str × List Question)
  | [], name, q => [(name, [q])]
  | (m, l) :: rest, name, q =>
    if m = name then (m, l ++ [q]) :: rest
    else (m, l) :: insertGrouped rest name q

/-- `questionsByTopic` built by the forEach over `processedQuestions`, read back
with `Object.entries` (string keys keep insertion order; the integer-like-key
reordering of JS objects is not modelled, topic names being arbitrary text). -/
def groupByTopic (qs : List Question) : List (Str × List Question) :=
  qs.foldl (fun acc q => insertGrouped acc (topicKey q) q) []

inductive ImportOutcome where
  | noValidRows
  | imported (topics : List Topic) (importedCount skippedCount : Nat)
  deriving DecidableEq, Repr

/-- The import orchestrator of `parseCSV` after header validation: normalise
every row, fail with `NoValidRows` when nothing survives, otherwise group the
questions by topic and emit one topic per group (topic ids are fresh uuids,
modelled by the empty placeholder). -/
def importSource (rows : List Row) (sourceName : Str) : ImportOutcome :=
  if (processRows rows sourceName).1.length = 0 then .noValidRows
  else
    .imported
      ((groupByTopic (processRows rows sourceName).1).map (fun p => ⟨[], p.1, p.2⟩))
      (processRows rows sourceName).1.length (processRows rows sourceName).2

/-- Topics carried by an outcome (`noValidRows` emits none). -/
def emittedTopics : ImportOutcome → List Topic
  | .noValidRows => []
  | .imported ts _ _ => ts

/-! ## Topic save/merge (store `addTopic` and the `/api/topics` handler) -/

/-- `preserveQuestionFields` — identical in the client store and in routes.ts:
rebuilds each question field by field, with `|| ''` defaults, and explicitly
keeps `pageNo`. -/
def preserveQuestion (q : Question) : Question :=
  { id := q.id
    no := jsOr (some q.no) []
    question := q.question
    options := q.options
    correctAnswer := q.correctAnswer
    explanation := jsOr (some q.explanation) []
    topic := jsOr (some q.topic) []
    pageNo := jsOr (some q.pageNo) [] }

def preserveQuestionFields (qs : List Question) : List Question :=
  qs.map preserveQuestion

/-- The merge step for an existing topic id:
`[...existingQuestions, ...preservedQuestions]`. -/
def mergeQuestions (existing newQs : List Question) : List Question :=
  existing ++ preserveQuestionFields newQs

/-! ## LLM-response JSON extraction (extract-mcq handler; the extraction code is
identical in routes.ts and api-handler.ts)

`JSON.parse` is an external library call; the extractor is parameterised by an
abstract parser `Str → Option Json`.  A successful parse of a string that
begins with `{` always yields an object, so field access on non-objects is
modelled as an absent property. -/

inductive Json where
  | null
  | bool (b : Bool)
  | num (n : Int)
  | jstr (s : Str)
  | arr (elems : List Json)
  | obj (fields : List (Str × Json))

/-- `value.field` member access (absent / non-object gives `undefined`). -/
def jsonField (v : Json) (k : Str) : Option Json :=
  match v with
  | .obj fields => (fields.find? (fun p => p.1 = k)).map (·.2)
  | _ => none

/-- First-match attempt of `/^```(?:json)?\s*\n?/m` at a position: three
backticks, the literal `json` if present, then the maximal `\s` run (`\s*` is
greedy and `\n? ` adds nothing after it since `\s` contains `\n`).  Returns the
text remaining after the match. -/
def fenceOpenAt (s : Str) : Option Str :=
  if (str "```").isPrefixOf s then
    let r := s.drop 3
    let r := if (str "json").isPrefixOf r then r.drop 4 else r
    some (r.dropWhile isJsWhitespace)
  else none

/-- `jsonStr.replace(/^```(?:json)?\s*\n?/m, '')`: scan left to right for the
first line-start position where the fence pattern matches, delete the match. -/
def replaceLeadFenceGo : Str → Bool → Str
  | [], _ => []
  | c :: rest, atLineStart =>
    if atLineStart then
      match fenceOpenAt (c :: rest) with
      | some rem => rem
      | none => c :: replaceLeadFenceGo rest (isLineTerm c)
    else c :: replaceLeadFenceGo rest (isLineTerm c)

def replaceLeadFence (s : Str) : Str := replaceLeadFenceGo s true

/-- Largest backtrack point of a greedy `\s*` before `$` (multiline): the
longest whitespace run length `k` such that the position after it is the end of
the string or a line terminator. -/
def wsRunEnd (s : Str) : Option Nat :=
  let run := (s.takeWhile isJsWhitespace).length
  (List.range (run + 1)).reverse.find? (fun k =>
    match s.drop k with
    | [] => true
    | c :: _ => isLineTerm c)

/-- Match of ```` ```\s*$ ```` at a position (length consumed). -/
def fenceCloseTicks (s : Str) : Option Nat :=
  if (str "```").isPrefixOf s then
    (wsRunEnd (s.drop 3)).map (fun k => 3 + k)
  else none

/-- Match of `/\n?```\s*$/m` at a position: the greedy `\n?` is tried first. -/
def fenceCloseAt (s : Str) : Option Nat :=
  match s with
  | '\n' :: rest =>
    match fenceCloseTicks rest with
    | some n => some (n + 1)
    | none => fenceCloseTicks s
  | _ => fenceCloseTicks s

/-- `jsonStr.replace(/\n?```\s*$/m, '')`: first match, deleted. -/
def replaceTrailFence : Str → Str
  | [] => []
  | c :: rest =>
    match fenceCloseAt (c :: rest) with
    | some n => (c :: rest).drop n
    | none => c :: replaceTrailFence rest

/-- `jsonStr` after `trim()` and both fence replacements. -/
def extractStage (text : Str) : Str :=
  replaceTrailFence (replaceLeadFence (trimJS text))

/-- `indexOf(c)` over code points (`-1` when absent). -/
def idxOfCharAux : Str → Char → Nat → Int
  | [], _, _ => -1
  | a :: rest, c, i => if a = c then (i : Int) else idxOfCharAux rest c (i + 1)

def idxOfChar (s : Str) (c : Char) : Int := idxOfCharAux s c 0

/-- `lastIndexOf(c)` over code points (`-1` when absent). -/
def lastIdxOfChar (s : Str) (c : Char) : Int :=
  if idxOfChar s.reverse c = -1 then -1
  else (s.length : Int) - 1 - idxOfChar s.reverse c

/-- The failure test `firstBrace === -1 || lastBrace === -1 || firstBrace >= lastBrace`. -/
def bracesOk (s : Str) : Bool :=
  let firstBrace := idxOfChar s '\x7b'
  let lastBrace := lastIdxOfChar s '\x7d'
  !(firstBrace = -1 || lastBrace = -1 || firstBrace ≥ lastBrace)

/-- `jsonStr.substring(firstBrace, lastBrace + 1)` (meaningful when `bracesOk`). -/
def slicedOf (s : Str) : Str :=
  let firstBrace := (idxOfChar s '\x7b').toNat
  let lastBrace := (lastIdxOfChar s '\x7d').toNat
  (s.drop firstBrace).take (lastBrace + 1 - firstBrace)

/-- One attempt of `,(\s*[\}\]])` at a comma: the maximal whitespace run then a
closing bracket (backtracking inside the run cannot succeed since whitespace is
never a closing bracket). -/
def trailingCommaAt (s : Str) : Option (Str × Char × Str) :=
  match s.drop (s.takeWhile isJsWhitespace).length with
  | c :: rest =>
    if c = '\x7d' ∨ c = ']' then some (s.takeWhile isJsWhitespace, c, rest) else none
  | [] => none

/-- `jsonStr2.replace(/,(\s*[\}\]])/g, '$1')`: global scan, each match replaced
by its captured group, scanning resuming after the match.  The fuel argument
(always at least the string length, each step consuming at least one
character) only makes the recursion structural. -/
def removeTrailingCommasFuel : Nat → Str → Str
  | 0, s => s
  | _ + 1, [] => []
  | fuel + 1, ',' :: rest =>
    match trailingCommaAt rest with
    | some (ws, c, rest2) => ws ++ c :: removeTrailingCommasFuel fuel rest2
    | none => ',' :: removeTrailingCommasFuel fuel rest
  | fuel + 1, c :: rest => c :: removeTrailingCommasFuel fuel rest

def removeTrailingCommas (s : Str) : Str := removeTrailingCommasFuel s.length s

/-- The string handed to `JSON.parse`. -/
def cleanedOf (text : Str) : Str :=
  removeTrailingCommas (slicedOf (extractStage text))

inductive OcrOutcome where
  | malformed (excerpt : Str)
  | invalidShape
  | emptyQuestions
  | success (result : Json)

/-- The extract-mcq handler pipeline downstream of the LLM call, common to
routes.ts and api-handler.ts: trim, strip fences, slice between braces
(failing with the 200-character excerpt of the original response), repair
trailing commas, parse (failing with a 150-character excerpt), then check that
`result.questions` is an array (arrays are the only truthy values passing
`Array.isArray`) and reject an empty one with the dedicated 400 response. -/
def ocrExtract (parse : Str → Option Json) (responseText : Str) : OcrOutcome :=
  if bracesOk (extractStage responseText) then
    match parse (removeTrailingCommas (slicedOf (extractStage responseText))) with
    | none => .malformed (responseText.take 150)
    | some result =>
      match jsonField result (str "questions") with
      | some (.arr questions) =>
        if questions.length = 0 then .emptyQuestions else .success result
      | _ => .invalidShape
  else .malformed (responseText.take 200)

/-- The HTTP status each outcome is answered with (`res.status(400)` on every
failure branch, including the empty-questions one; the success path responds
200). -/
def ocrStatus : OcrOutcome → Nat
  | .malformed _ => 400
  | .invalidShape => 400
  | .emptyQuestions => 400
  | .success _ => 200

/-- A parser stub that agrees with `JSON.parse` on the single payload used to
exercise the empty-questions branch. -/
def emptyQuestionsParse : Str → Option Json :=
  fun s =>
    if s = str "\x7b\"questions\":[]\x7d" then
      some (Json.obj [(str "questions", Json.arr [])])
    else none

/-- A response consisting of exactly the empty-questions JSON payload. -/
def emptyQuestionsText : Str := str "\x7b\"questions\":[]\x7d"

/-! ## Character-level facts -/

theorem toNat_ofNat_valid (n : Nat) (h : n < 55296) : (Char.ofNat n).toNat = n := by
  unfold Char.ofNat
  rw [dif_pos (Or.inl h)]
  unfold Char.ofNatAux
  simp [Char.toNat, UInt32.ofNat', UInt32.toNat, BitVec.toNat_ofNatLt]

theorem char_eq_iff_toNat (a b : Char) : a = b ↔ a.toNat = b.toNat := by
  constructor
  · intro h; rw [h]
  · intro h
    have h2 := congrArg Char.ofNat h
    rwa [Char.ofNat_toNat, Char.ofNat_toNat] at h2

theorem toNat_lowerAscii (c : Char) :
    (lowerAscii c).toNat = if 65 ≤ c.toNat ∧ c.toNat ≤ 90 then c.toNat + 32 else c.toNat := by
  unfold lowerAscii
  split
  · next h => rw [toNat_ofNat_valid _ (by omega)]
  · rfl

theorem toNat_upperAscii (c : Char) :
    (upperAscii c).toNat = if 97 ≤ c.toNat ∧ c.toNat ≤ 122 then c.toNat - 32 else c.toNat := by
  unfold upperAscii
  split
  · next h => rw [toNat_ofNat_valid _ (by omega)]
  · rfl

theorem isJsWhitespace_iff (c : Char) :
    isJsWhitespace c = true ↔
      c.toNat = 0x20 ∨ c.toNat = 0x09 ∨ c.toNat = 0x0a ∨ c.toNat = 0x0b ∨
      c.toNat = 0x0c ∨ c.toNat = 0x0d ∨ c.toNat = 0xa0 ∨ c.toNat = 0x1680 ∨
      (0x2000 ≤ c.toNat ∧ c.toNat ≤ 0x200a) ∨
      c.toNat = 0x2028 ∨ c.toNat = 0x2029 ∨ c.toNat = 0x202f ∨
      c.toNat = 0x205f ∨ c.toNat = 0x3000 ∨ c.toNat = 0xfeff := by
  simp [isJsWhitespace]
  tauto

theorem isJsWhitespace_lowerAscii (c : Char) :
    isJsWhitespace (lowerAscii c) = isJsWhitespace c := by
  rw [Bool.eq_iff_iff, isJsWhitespace_iff, isJsWhitespace_iff, toNat_lowerAscii]
  by_cases h : 65 ≤ c.toNat ∧ c.toNat ≤ 90
  · rw [if_pos h]
    constructor <;> intro hcon <;> omega
  · rw [if_neg h]

/-! ## Deduplicator lemmas (claim C4 support) -/

theorem lowerStr_dropWhile (s : Str) :
    lowerStr (s.dropWhile isJsWhitespace) = (lowerStr s).dropWhile isJsWhitespace := by
  induction s with
  | nil => rfl
  | cons c rest ih =>
    simp only [lowerStr, List.map_cons, List.dropWhile_cons, isJsWhitespace_lowerAscii]
    split
    · simpa [lowerStr] using ih
    · rfl

theorem lowerStr_reverse (s : Str) : lowerStr s.reverse = (lowerStr s).reverse := by
  simp [lowerStr]

theorem lowerStr_trimJS (s : Str) : lowerStr (trimJS s) = trimJS (lowerStr s) := by
  unfold trimJS
  rw [lowerStr_reverse, lowerStr_dropWhile, lowerStr_reverse, lowerStr_dropWhile]

theorem trimKey_congr {a b : Str} (h : lowerStr a = lowerStr b) :
    lowerStr (trimJS a) = lowerStr (trimJS b) := by
  rw [lowerStr_trimJS, lowerStr_trimJS, h]

theorem dedupTrimCIAux_sublist (l : List Str) :
    ∀ seen, (dedupTrimCIAux seen l).Sublist l := by
  induction l with
  | nil => intro seen; simp [dedupTrimCIAux]
  | cons o rest ih =>
    intro seen
    unfold dedupTrimCIAux
    split
    · exact (ih seen).cons o
    · exact (ih _).cons₂ o

theorem dedupTrimCIAux_key_notin (l : List Str) :
    ∀ seen x, x ∈ dedupTrimCIAux seen l → lowerStr (trimJS x) ∉ seen := by
  induction l with
  | nil => intro seen x hx; simp [dedupTrimCIAux] at hx
  | cons o rest ih =>
    intro seen x hx
    unfold dedupTrimCIAux at hx
    split at hx
    · exact ih seen x hx
    · next hnot =>
      rcases List.mem_cons.mp hx with h | h
      · subst h; exact hnot
      · have := ih _ x h
        intro hcon
        exact this (List.mem_cons_of_mem _ hcon)

theorem dedupTrimCIAux_pairwise (l : List Str) :
    ∀ seen, (dedupTrimCIAux seen l).Pairwise
      (fun a b => lowerStr (trimJS a) ≠ lowerStr (trimJS b)) := by
  induction l with
  | nil => intro seen; simp [dedupTrimCIAux]
  | cons o rest ih =>
    intro seen
    unfold dedupTrimCIAux
    split
    · exact ih seen
    · refine List.Pairwise.cons ?_ (ih _)
      intro x hx
      have := dedupTrimCIAux_key_notin rest _ x hx
      intro hcon
      exact this (by rw [← hcon]; exact List.mem_cons_self _ _)

theorem dedupTrimCIAux_represents (l : List Str) :
    ∀ seen a, a ∈ l →
      lowerStr (trimJS a) ∈ seen ∨
      ∃ b ∈ dedupTrimCIAux seen l, lowerStr (trimJS b) = lowerStr (trimJS a) := by
  induction l with
  | nil => intro seen a ha; simp at ha
  | cons o rest ih =>
    intro seen a ha
    unfold dedupTrimCIAux
    rcases List.mem_cons.mp ha with h | h
    · subst h
      split
      · next hin => exact Or.inl hin
      · exact Or.inr ⟨a, List.mem_cons_self _ _, rfl⟩
    · split
      · exact ih seen a h
      · rcases ih (lowerStr (trimJS o) :: seen) a h with hseen | ⟨b, hb, hkey⟩
        · rcases List.mem_cons.mp hseen with heq | hseen'
          · exact Or.inr ⟨o, List.mem_cons_self _ _, heq.symm⟩
          · exact Or.inl hseen'
        · exact Or.inr ⟨b, List.mem_cons_of_mem _ hb, hkey⟩

theorem dedupCIAux_sublist (l : List Str) :
    ∀ seen, (dedupCIAux seen l).Sublist l := by
  induction l with
  | nil => intro seen; simp [dedupCIAux]
  | cons o rest ih =>
    intro seen
    unfold dedupCIAux
    split
    · exact (ih seen).cons o
    · exact (ih _).cons₂ o

theorem dedupCIAux_key_notin (l : List Str) :
    ∀ seen x, x ∈ dedupCIAux seen l → lowerStr x ∉ seen := by
  induction l with
  | nil => intro seen x hx; simp [dedupCIAux] at hx
  | cons o rest ih =>
    intro seen x hx
    unfold dedupCIAux at hx
    split at hx
    · exact ih seen x hx
    · next hnot =>
      rcases List.mem_cons.mp hx with h | h
      · subst h; exact hnot
      · have := ih _ x h
        intro hcon
        exact this (List.mem_cons_of_mem _ hcon)

theorem dedupCIAux_pairwise (l : List Str) :
    ∀ seen, (dedupCIAux seen l).Pairwise (fun a b => lowerStr a ≠ lowerStr b) := by
  induction l with
  | nil => intro seen; simp [dedupCIAux]
  | cons o rest ih =>
    intro seen
    unfold dedupCIAux
    split
    · exact ih seen
    · refine List.Pairwise.cons ?_ (ih _)
      intro x hx
      have := dedupCIAux_key_notin rest _ x hx
      intro hcon
      exact this (by rw [← hcon]; exact List.mem_cons_self _ _)

theorem dedupCIAux_represents (l : List Str) :
    ∀ seen a, a ∈ l →
      lowerStr a ∈ seen ∨ ∃ b ∈ dedupCIAux seen l, lowerStr b = lowerStr a := by
  induction l with
  | nil => intro seen a ha; simp at ha
  | cons o rest ih =>
    intro seen a ha
    unfold dedupCIAux
    rcases List.mem_cons.mp ha with h | h
    · subst h
      split
      · next hin => exact Or.inl hin
      · exact Or.inr ⟨a, List.mem_cons_self _ _, rfl⟩
    · split
      · exact ih seen a h
      · rcases ih (lowerStr o :: seen) a h with hseen | ⟨b, hb, hkey⟩
        · rcases List.mem_cons.mp hseen with heq | hseen'
          · exact Or.inr ⟨o, List.mem_cons_self _ _, heq.symm⟩
          · exact Or.inl hseen'
        · exact Or.inr ⟨b, List.mem_cons_of_mem _ hb, hkey⟩

/-- C4: for every input list, both deduplicators (the one in `parseCSV`, keyed
on `trim().toLowerCase()`, and the one in `validateAndCleanQuestions`, keyed on
`toLowerCase()`) produce an output with no two elements equal under
case-insensitive comparison; the output is a sublist of the input (so the
relative order of the kept first occurrences is preserved), and every input
element is represented in the output by the first occurrence of its key. -/
theorem c4_deduplicator_ci_distinct_order (l : List Str) :
    ((dedupTrimCI l).Pairwise (fun a b => lowerStr a ≠ lowerStr b) ∧
      (dedupTrimCI l).Sublist l ∧
      ∀ a ∈ l, ∃ b ∈ dedupTrimCI l, lowerStr (trimJS b) = lowerStr (trimJS a)) ∧
    ((dedupCI l).Pairwise (fun a b => lowerStr a ≠ lowerStr b) ∧
      (dedupCI l).Sublist l ∧
      ∀ a ∈ l, ∃ b ∈ dedupCI l, lowerStr b = lowerStr a) := by
  refine ⟨⟨?_, dedupTrimCIAux_sublist l [], ?_⟩, ⟨?_, dedupCIAux_sublist l [], ?_⟩⟩
  · exact (dedupTrimCIAux_pairwise l []).imp (fun h hcon => h (trimKey_congr hcon))
  · intro a ha
    rcases dedupTrimCIAux_represents l [] a ha with h | h
    · simp at h
    · exact h
  · exact dedupCIAux_pairwise l []
  · intro a ha
    rcases dedupCIAux_represents l [] a ha with h | h
    · simp at h
    · exact h

/-- C4 witness: concrete dedup run, with representation of a discarded
duplicate. -/
theorem c4_deduplicator_ci_distinct_order_witness :
    ∃ b ∈ dedupTrimCI [str "Paris", str "PARIS", str "Rome"],
      lowerStr (trimJS b) = lowerStr (trimJS (str "PARIS")) :=
  (c4_deduplicator_ci_distinct_order [str "Paris", str "PARIS", str "Rome"]).1.2.2
    (str "PARIS") (by decide)

/-! ## Row-normaliser skip behaviour (claims C5, C6) -/

theorem normalizeRow_questionMissing {row : Row} (i : Nat) (src : Str)
    (h : questionMissing row = true) : normalizeRow row i src = none := by
  unfold normalizeRow
  unfold questionMissing at h
  rw [Option.isNone_iff_eq_none] at h
  rw [h]

theorem normalizeRow_fewOptions {row : Row} (i : Nat) (src : Str)
    (h : (survivingOptions row).length < 2) : normalizeRow row i src = none := by
  unfold normalizeRow
  cases htr : truthy (getVal row (str "Question")) with
  | none => rfl
  | some qt => simp [htr, if_pos h]

theorem processRowsFrom_total (src : Str) (rows : List Row) :
    ∀ i, (processRowsFrom src rows i).1.length + (processRowsFrom src rows i).2
      = rows.length := by
  induction rows with
  | nil => intro i; rfl
  | cons row rest ih =>
    intro i
    unfold processRowsFrom
    cases h : normalizeRow row i src <;> simp <;> have := ih (i + 1) <;> omega

theorem processRowsFrom_skipped (src : Str) (rows : List Row) :
    ∀ i, (processRowsFrom src rows i).2 =
      (List.enumFrom i rows).countP (fun p => decide (normalizeRow p.2 p.1 src = none)) := by
  induction rows with
  | nil => intro i; rfl
  | cons row rest ih =>
    intro i
    unfold processRowsFrom
    rw [List.enumFrom_cons, List.countP_cons]
    cases h : normalizeRow row i src <;> simp [h, ih (i + 1)]

/-- C5: a row whose resolved question field is empty or absent is skipped, a
row whose surviving options number fewer than 2 is skipped; skipping is a
returned signal, counted into the skipped total, and the rest of the batch is
still processed (produced questions and skips add up to the batch size). -/
theorem c5_skipped_rows_counted_never_throw (rows : List Row) (src : Str) :
    (∀ row i, questionMissing row = true → normalizeRow row i src = none) ∧
    (∀ row i, (survivingOptions row).length < 2 → normalizeRow row i src = none) ∧
    (processRows rows src).2 =
      (List.enumFrom 0 rows).countP (fun p => decide (normalizeRow p.2 p.1 src = none)) ∧
    (processRows rows src).1.length + (processRows rows src).2 = rows.length := by
  exact ⟨fun row i h => normalizeRow_questionMissing i src h,
    fun row i h => normalizeRow_fewOptions i src h,
    processRowsFrom_skipped src rows 0,
    processRowsFrom_total src rows 0⟩

/-- C5 witness: the empty row is missing its question and is skipped. -/
theorem c5_skipped_rows_counted_never_throw_witness :
    normalizeRow [] 0 [] = none :=
  (c5_skipped_rows_counted_never_throw [] []).1 [] 0 rfl

theorem processRowsFrom_all_skipped (src : Str) (rows : List Row) :
    ∀ i, (∀ j row, rows.get? j = some row → normalizeRow row (i + j) src = none) →
      (processRowsFrom src rows i).1 = [] := by
  induction rows with
  | nil => intro i _; rfl
  | cons row rest ih =>
    intro i h
    unfold processRowsFrom
    have h0 : normalizeRow row i src = none := by
      have := h 0 row rfl
      simpa using this
    have hrest : (processRowsFrom src rest (i + 1)).1 = [] := by
      apply ih
      intro j r hj
      have := h (j + 1) r (by simpa using hj)
      have harith : i + (j + 1) = i + 1 + j := by omega
      rwa [harith] at this
    rw [h0, hrest]

theorem insertGrouped_nonempty (acc : List (Str × List Question)) (n : Str)
    (q : Question) (hacc : ∀ nm l, (nm, l) ∈ acc → l ≠ []) :
    ∀ nm l, (nm, l) ∈ insertGrouped acc n q → l ≠ [] := by
  induction acc with
  | nil =>
    intro nm l hmem
    simp [insertGrouped] at hmem
    rw [hmem.2]
    simp
  | cons hd rest ih =>
    obtain ⟨m, l0⟩ := hd
    intro nm l hmem
    unfold insertGrouped at hmem
    split at hmem
    · rcases List.mem_cons.mp hmem with hx | hx
      · rw [Prod.mk.injEq] at hx
        rw [hx.2]
        simp
      · exact hacc nm l (List.mem_cons_of_mem _ hx)
    · rcases List.mem_cons.mp hmem with hx | hx
      · rw [Prod.mk.injEq] at hx
        exact hx.2 ▸ hacc m l0 (List.mem_cons_self _ _)
      · exact ih (fun nm2 l2 hm2 => hacc nm2 l2 (List.mem_cons_of_mem _ hm2)) nm l hx

theorem groupFold_nonempty (qs : List Question) :
    ∀ acc, (∀ nm l, (nm, l) ∈ acc → l ≠ []) →
      ∀ nm l, (nm, l) ∈ qs.foldl (fun a p => insertGrouped a (topicKey p) p) acc →
        l ≠ [] := by
  induction qs with
  | nil => intro acc hacc nm l hmem; exact hacc nm l hmem
  | cons p rest ih =>
    intro acc hacc nm l hmem
    rw [List.foldl_cons] at hmem
    exact ih _ (insertGrouped_nonempty acc (topicKey p) p hacc) nm l hmem

theorem groupByTopic_nonempty (qs : List Question) :
    ∀ nm l, (nm, l) ∈ groupByTopic qs → l ≠ [] :=
  groupFold_nonempty qs [] (by simp)

/-- C6: when every row of a batch is skipped, the orchestrator fails with the
`NoValidRows` outcome and emits zero topics; moreover no import ever emits a
topic with an empty question list. -/
theorem c6_all_rows_skipped_no_valid_rows (rows : List Row) (src : Str)
    (h : ∀ j row, rows.get? j = some row → normalizeRow row j src = none) :
    importSource rows src = .noValidRows ∧
    emittedTopics (importSource rows src) = [] ∧
    (∀ (rows2 : List Row) (src2 : Str) (t : Topic),
      t ∈ emittedTopics (importSource rows2 src2) → t.questions ≠ []) := by
  have hempty : (processRows rows src).1 = [] := by
    apply processRowsFrom_all_skipped src rows 0
    intro j row hj
    simpa using h j row hj
  refine ⟨?_, ?_, ?_⟩
  · unfold importSource
    rw [hempty]
    rfl
  · unfold importSource
    rw [hempty]
    rfl
  · intro rows2 src2 t hmem
    unfold importSource at hmem
    split at hmem
    · simp [emittedTopics] at hmem
    · simp only [emittedTopics] at hmem
      obtain ⟨p, hp, hpt⟩ := List.mem_map.mp hmem
      have := groupByTopic_nonempty (processRows rows2 src2).1 p.1 p.2 hp
      rw [← hpt]
      simpa using this

/-- C6 witness: a one-row batch with no question column fails with
`NoValidRows` and emits no topics. -/
theorem c6_all_rows_skipped_no_valid_rows_witness :
    importSource [[(str "Foo", str "bar")]] (str "x.csv") = .noValidRows := by
  have h := c6_all_rows_skipped_no_valid_rows [[(str "Foo", str "bar")]] (str "x.csv")
    (by
      intro j row hj
      match j, hj with
      | 0, hj =>
        have h2 : [(str "Foo", str "bar")] = row := by simpa using hj
        subst h2
        rfl
      | j + 1, hj => simp at hj)
  exact h.1

/-! ## pageNo preservation (claim C8) -/

theorem insertGrouped_mem_of_mem (acc : List (Str × List Question)) (n : Str)
    (q : Question) :
    ∀ nm l p, (nm, l) ∈ insertGrouped acc n q → p ∈ l →
      p = q ∨ ∃ nm' l', (nm', l') ∈ acc ∧ p ∈ l' := by
  induction acc with
  | nil =>
    intro nm l p hmem hp
    simp [insertGrouped] at hmem
    rw [hmem.2] at hp
    simp at hp
    exact Or.inl hp
  | cons hd rest ih =>
    obtain ⟨m, l0⟩ := hd
    intro nm l p hmem hp
    unfold insertGrouped at hmem
    split at hmem
    · rcases List.mem_cons.mp hmem with h | h
      · rw [Prod.mk.injEq] at h
        obtain ⟨h1, h2⟩ := h
        subst h2
        rcases List.mem_append.mp hp with h3 | h3
        · exact Or.inr ⟨m, l0, List.mem_cons_self _ _, h3⟩
        · simp at h3
          exact Or.inl h3
      · exact Or.inr ⟨nm, l, List.mem_cons_of_mem _ h, hp⟩
    · rcases List.mem_cons.mp hmem with h | h
      · rw [Prod.mk.injEq] at h
        obtain ⟨h1, h2⟩ := h
        subst h2
        exact Or.inr ⟨m, l, List.mem_cons_self _ _, hp⟩
      · rcases ih nm l p h hp with h3 | ⟨nm', l', h4, h5⟩
        · exact Or.inl h3
        · exact Or.inr ⟨nm', l', List.mem_cons_of_mem _ h4, h5⟩

theorem insertGrouped_self (acc : List (Str × List Question)) (n : Str) (q : Question) :
    ∃ nm l, (nm, l) ∈ insertGrouped acc n q ∧ q ∈ l := by
  induction acc with
  | nil => exact ⟨n, [q], List.mem_singleton.mpr rfl, List.mem_singleton.mpr rfl⟩
  | cons hd rest ih =>
    obtain ⟨m, l0⟩ := hd
    unfold insertGrouped
    split
    · exact ⟨m, l0 ++ [q], List.mem_cons_self _ _, List.mem_append_right _ (by simp)⟩
    · obtain ⟨nm, l, h1, h2⟩ := ih
      exact ⟨nm, l, List.mem_cons_of_mem _ h1, h2⟩

theorem insertGrouped_preserves (acc : List (Str × List Question)) (n : Str)
    (p : Question) {nm : Str} {l : List Question} {q : Question}
    (hmem : (nm, l) ∈ acc) (hq : q ∈ l) :
    ∃ l', (nm, l') ∈ insertGrouped acc n p ∧ q ∈ l' := by
  induction acc with
  | nil => simp at hmem
  | cons hd rest ih =>
    obtain ⟨m, l0⟩ := hd
    unfold insertGrouped
    rcases List.mem_cons.mp hmem with h | h
    · rw [Prod.mk.injEq] at h
      obtain ⟨h1, h2⟩ := h
      subst h1
      subst h2
      split
      · exact ⟨l ++ [p], List.mem_cons_self _ _, List.mem_append_left _ hq⟩
      · exact ⟨l, List.mem_cons_self _ _, hq⟩
    · split
      · exact ⟨l, List.mem_cons_of_mem _ h, hq⟩
      · obtain ⟨l', h1, h2⟩ := ih h
        exact ⟨l', List.mem_cons_of_mem _ h1, h2⟩

theorem groupFold_mem (qs : List Question) :
    ∀ acc nm l p,
      (nm, l) ∈ qs.foldl (fun a q => insertGrouped a (topicKey q) q) acc → p ∈ l →
      p ∈ qs ∨ ∃ nm' l', (nm', l') ∈ acc ∧ p ∈ l' := by
  induction qs with
  | nil => intro acc nm l p hmem hp; exact Or.inr ⟨nm, l, hmem, hp⟩
  | cons q rest ih =>
    intro acc nm l p hmem hp
    rw [List.foldl_cons] at hmem
    rcases ih _ nm l p hmem hp with h | ⟨nm', l', h1, h2⟩
    · exact Or.inl (List.mem_cons_of_mem _ h)
    · rcases insertGrouped_mem_of_mem acc (topicKey q) q nm' l' p h1 h2 with h3 | h3
      · exact Or.inl (h3 ▸ List.mem_cons_self _ _)
      · exact Or.inr h3

theorem groupFold_preserves (qs : List Question) :
    ∀ acc nm l q, (nm, l) ∈ acc → q ∈ l →
      ∃ l', (nm, l') ∈ qs.foldl (fun a p => insertGrouped a (topicKey p) p) acc ∧ q ∈ l' := by
  induction qs with
  | nil => intro acc nm l q hmem hq; exact ⟨l, hmem, hq⟩
  | cons p rest ih =>
    intro acc nm l q hmem hq
    rw [List.foldl_cons]
    obtain ⟨l', h1, h2⟩ := insertGrouped_preserves acc (topicKey p) p hmem hq
    exact ih _ nm l' q h1 h2

theorem groupFold_self (qs : List Question) :
    ∀ acc q, q ∈ qs →
      ∃ nm l, (nm, l) ∈ qs.foldl (fun a p => insertGrouped a (topicKey p) p) acc ∧ q ∈ l := by
  induction qs with
  | nil => intro acc q hq; simp at hq
  | cons p rest ih =>
    intro acc q hq
    rw [List.foldl_cons]
    rcases List.mem_cons.mp hq with h | h
    · subst h
      obtain ⟨nm, l, h1, h2⟩ := insertGrouped_self acc (topicKey q) q
      obtain ⟨l', h3, h4⟩ := groupFold_preserves rest _ nm l q h1 h2
      exact ⟨nm, l', h3, h4⟩
    · exact ih _ q h

/-- C8: a question whose `pageNo` is set survives unchanged: the save step
(`preserveQuestionFields`) keeps its `pageNo` verbatim at the same position,
the merge step appends it behind the existing questions with the same
`pageNo`, and the orchestrator's topic grouping neither modifies questions
(every grouped question is an input question) nor drops them (the question
appears in some emitted group). -/
theorem c8_pageNo_preserved (prev qs : List Question) (i : Nat) (q : Question)
    (hget : qs.get? i = some q) (hset : q.pageNo ≠ []) :
    (∃ q2, (preserveQuestionFields qs).get? i = some q2 ∧ q2.pageNo = q.pageNo) ∧
    (∃ q2, (mergeQuestions prev qs).get? (prev.length + i) = some q2 ∧
      q2.pageNo = q.pageNo) ∧
    (∀ nm l p, (nm, l) ∈ groupByTopic qs → p ∈ l → p ∈ qs) ∧
    (∃ nm l, (nm, l) ∈ groupByTopic qs ∧ q ∈ l) := by
  have hpage : (preserveQuestion q).pageNo = q.pageNo := by
    unfold preserveQuestion jsOr truthy
    simp [hset]
  have hmap : (preserveQuestionFields qs).get? i = some (preserveQuestion q) := by
    unfold preserveQuestionFields
    rw [List.get?_map, hget]
    rfl
  refine ⟨⟨preserveQuestion q, hmap, hpage⟩, ⟨preserveQuestion q, ?_, hpage⟩, ?_, ?_⟩
  · unfold mergeQuestions
    rw [List.get?_append_right (by omega)]
    simpa using hmap
  · intro nm l p hmem hp
    unfold groupByTopic at hmem
    rcases groupFold_mem qs [] nm l p hmem hp with h | ⟨nm', l', h1, _⟩
    · exact h
    · simp at h1
  · unfold groupByTopic
    exact groupFold_self qs [] q (List.get?_mem hget)

/-- C8 witness at a concrete question with `pageNo` set. -/
theorem c8_pageNo_preserved_witness :
    ∃ q2, (mergeQuestions [] [⟨str "i", str "1", str "q", [str "a", str "b"],
        str "A", str "e", str "t", str "22"⟩]).get? 0 = some q2 ∧
      q2.pageNo = str "22" :=
  (c8_pageNo_preserved [] [⟨str "i", str "1", str "q", [str "a", str "b"],
      str "A", str "e", str "t", str "22"⟩] 0 _ rfl (by simp [str])).2.1

/-! ## Option-extraction fallback order (claim C3) -/

theorem extractOptions_eq_spec (row : Row) :
    extractOptions row = specExtractOptions row := by
  unfold extractOptions specExtractOptions specOptionStrategies
  by_cases h1 : stratVals optionLetterLabels row = [] <;>
    by_cases h2 : stratVals optionNumberLabels row = [] <;>
      by_cases h3 : stratVals letterHeaders row = [] <;>
        by_cases h4 : stratFuzzyVals optionLetterLabels row = [] <;>
          simp [List.find?, h1, h2, h3, h4]

/-- C3: option extraction follows the claimed fallback order — the first of
the four strategies (exact `Option A..D`, exact `Option1..4`, exact `A..D`,
fuzzy `Option A..D`) yielding at least one value wins; the values then have
blank entries discarded and are deduplicated case-insensitively, a row keeping
fewer than 2 options is skipped, and a surviving row carries exactly the
cleaned options. -/
theorem c3_option_fallback_order (row : Row) (i : Nat) (src : Str) :
    extractOptions row = specExtractOptions row ∧
    (∀ q, normalizeRow row i src = some q →
      q.options = dedupTrimCI (discardBlank (specExtractOptions row))) ∧
    ((dedupTrimCI (discardBlank (specExtractOptions row))).length < 2 →
      normalizeRow row i src = none) := by
  have hs : survivingOptions row = dedupTrimCI (discardBlank (specExtractOptions row)) := by
    unfold survivingOptions
    rw [extractOptions_eq_spec]
  refine ⟨extractOptions_eq_spec row, ?_, ?_⟩
  · intro q hq
    unfold normalizeRow at hq
    cases htr : truthy (getVal row (str "Question")) with
    | none => rw [htr] at hq; simp at hq
    | some qt =>
      rw [htr] at hq
      dsimp only at hq
      split at hq
      · simp at hq
      · injection hq with hq
        rw [← hq, ← hs]
  · intro hlen
    exact normalizeRow_fewOptions i src (by rw [hs]; exact hlen)

/-- C3 witness: a row with a question but a single option is skipped. -/
theorem c3_option_fallback_order_witness :
    normalizeRow [(str "Question", str "Q?"), (str "Option A", str "x")] 0 [] = none :=
  (c3_option_fallback_order [(str "Question", str "Q?"), (str "Option A", str "x")]
    0 []).2.2 (by decide)

/-! ## Answer-format resolver lemmas (claims C1, C9, C10 support) -/

theorem isLetterAD_iff (c : Char) :
    isLetterAD c = true ↔
      (65 ≤ c.toNat ∧ c.toNat ≤ 68) ∨ (97 ≤ c.toNat ∧ c.toNat ≤ 100) := by
  unfold isLetterAD letterADIdx
  rw [toNat_upperAscii]
  by_cases h : 97 ≤ c.toNat ∧ c.toNat ≤ 122
  · rw [if_pos h]
    split <;> simp <;> omega
  · rw [if_neg h]
    split <;> simp <;> omega

theorem letterADIdx_eq_some {c : Char} {i : Nat} (h : letterADIdx c = some i) :
    isLetterAD c = true ∧ 65 ≤ (upperAscii c).toNat ∧ (upperAscii c).toNat ≤ 68 ∧
      i = (upperAscii c).toNat - 65 := by
  unfold letterADIdx at h
  split at h
  · next hc =>
    refine ⟨?_, hc.1, hc.2, (Option.some.injEq .. ▸ h).symm⟩
    unfold isLetterAD letterADIdx
    rw [if_pos hc]
    rfl
  · simp at h

theorem digit14Idx_eq_some {c : Char} {i : Nat} (h : digit14Idx c = some i) :
    isDigit14 c = true ∧ 49 ≤ c.toNat ∧ c.toNat ≤ 52 ∧ i = c.toNat - 49 := by
  unfold digit14Idx at h
  split at h
  · next hc =>
    refine ⟨?_, hc.1, hc.2, (Option.some.injEq .. ▸ h).symm⟩
    unfold isDigit14 digit14Idx
    rw [if_pos hc]
    rfl
  · simp at h

theorem isDigit14_iff (c : Char) :
    isDigit14 c = true ↔ 49 ≤ c.toNat ∧ c.toNat ≤ 52 := by
  unfold isDigit14 digit14Idx
  split <;> simp <;> omega

theorem isDigit09_iff (c : Char) :
    isDigit09 c = true ↔ 48 ≤ c.toNat ∧ c.toNat ≤ 57 := by
  simp [isDigit09]

theorem not_ws_of_letterAD {c : Char} (h : isLetterAD c = true) :
    isJsWhitespace c = false := by
  rcases Bool.eq_false_or_eq_true (isJsWhitespace c) with hw | hw
  · exfalso
    rw [isJsWhitespace_iff] at hw
    rw [isLetterAD_iff] at h
    omega
  · exact hw

theorem not_ws_of_digit09 {c : Char} (h : isDigit09 c = true) :
    isJsWhitespace c = false := by
  rcases Bool.eq_false_or_eq_true (isJsWhitespace c) with hw | hw
  · exfalso
    rw [isJsWhitespace_iff] at hw
    rw [isDigit09_iff] at h
    omega
  · exact hw

theorem digit09_of_digit14 {c : Char} (h : isDigit14 c = true) : isDigit09 c = true := by
  rw [isDigit14_iff] at h
  rw [isDigit09_iff]
  omega

theorem not_letterAD_of_digit14 {c : Char} (h : isDigit14 c = true) :
    isLetterAD c = false := by
  rcases Bool.eq_false_or_eq_true (isLetterAD c) with hl | hl
  · exfalso
    rw [isLetterAD_iff] at hl
    rw [isDigit14_iff] at h
    omega
  · exact hl

theorem stripCI_none_of_short {pat : Str} :
    ∀ s : Str, s.length < pat.length → stripCI pat s = none := by
  induction pat with
  | nil => intro s h; simp at h
  | cons p ps ih =>
    intro s h
    cases s with
    | nil => rfl
    | cons c cs =>
      unfold stripCI
      split
      · exact ih cs (by simpa using Nat.lt_of_succ_lt_succ h)
      · rfl

theorem stripCI_optionWord_some {t r : Str} (h : stripCI optionWord t = some r) :
    ∃ c0 c1 c2 c3 c4 c5, t = c0 :: c1 :: c2 :: c3 :: c4 :: c5 :: r ∧
      lowerAscii c0 = 'o' ∧ lowerAscii c1 = 'p' ∧ lowerAscii c2 = 't' ∧
      lowerAscii c3 = 'i' ∧ lowerAscii c4 = 'o' ∧ lowerAscii c5 = 'n' := by
  have hw : optionWord = 'o' :: 'p' :: 't' :: 'i' :: 'o' :: 'n' :: [] := rfl
  rw [hw] at h
  cases t with
  | nil => simp [stripCI] at h
  | cons c0 t1 =>
    rw [stripCI] at h
    split at h
    case isFalse => simp at h
    case isTrue h0 =>
    cases t1 with
    | nil => simp [stripCI] at h
    | cons c1 t2 =>
      rw [stripCI] at h
      split at h
      case isFalse => simp at h
      case isTrue h1 =>
      cases t2 with
      | nil => simp [stripCI] at h
      | cons c2 t3 =>
        rw [stripCI] at h
        split at h
        case isFalse => simp at h
        case isTrue h2 =>
        cases t3 with
        | nil => simp [stripCI] at h
        | cons c3 t4 =>
          rw [stripCI] at h
          split at h
          case isFalse => simp at h
          case isTrue h3 =>
          cases t4 with
          | nil => simp [stripCI] at h
          | cons c4 t5 =>
            rw [stripCI] at h
            split at h
            case isFalse => simp at h
            case isTrue h4 =>
            cases t5 with
            | nil => simp [stripCI] at h
            | cons c5 t6 =>
              rw [stripCI] at h
              split at h
              case isFalse => simp at h
              case isTrue h5 =>
              rw [stripCI] at h
              injection h with h
              exact ⟨c0, c1, c2, c3, c4, c5, by rw [h], h0, h1, h2, h3, h4, h5⟩

theorem matchAtLetter_strip_none {s : Str} (h : stripCI optionWord s = none) :
    matchAtLetter s = none := by
  simp [matchAtLetter, h]

theorem matchAtDigit_strip_none {s : Str} (h : stripCI optionWord s = none) :
    matchAtDigit s = none := by
  simp [matchAtDigit, h]

theorem matchAtLetter_single {t : Str} {c : Char} (hs : stripCI optionWord t = some [c])
    (hc : isLetterAD c = true) : matchAtLetter t = some c := by
  simp [matchAtLetter, hs, not_ws_of_letterAD hc, hc]

theorem matchAtLetter_pair {t : Str} {w c : Char} (hs : stripCI optionWord t = some [w, c])
    (hw : isJsWhitespace w = true) (hc : isLetterAD c = true) : matchAtLetter t = some c := by
  simp [matchAtLetter, hs, hw, hc]

theorem matchAtDigit_single {t : Str} {c : Char} (hs : stripCI optionWord t = some [c])
    (hc : isDigit09 c = true) : matchAtDigit t = some c := by
  simp [matchAtDigit, hs, not_ws_of_digit09 hc, hc]

theorem matchAtDigit_pair {t : Str} {w c : Char} (hs : stripCI optionWord t = some [w, c])
    (hw : isJsWhitespace w = true) (hc : isDigit09 c = true) : matchAtDigit t = some c := by
  simp [matchAtDigit, hs, hw, hc]

theorem searchLetter_head {t : Str} {c : Char} (hne : t ≠ [])
    (hm : matchAtLetter t = some c) : searchLetter t = some c := by
  cases t with
  | nil => exact absurd rfl hne
  | cons a rest => simp [searchLetter, hm]

theorem searchDigit_head {t : Str} {c : Char} (hne : t ≠ [])
    (hm : matchAtDigit t = some c) : searchDigit t = some c := by
  cases t with
  | nil => exact absurd rfl hne
  | cons a rest => simp [searchDigit, hm]

theorem searchLetter_none (t : Str)
    (h : ∀ s : Str, s <:+ t → matchAtLetter s = none) : searchLetter t = none := by
  induction t with
  | nil => rfl
  | cons c rest ih =>
    unfold searchLetter
    rw [h (c :: rest) (List.suffix_refl _)]
    exact ih (fun s hs => h s (hs.trans (List.suffix_cons c rest)))

/-- When the trimmed answer is in the `Option <digit>` form, the letter regex
finds no match anywhere in the text: the anchored attempt at position 0 sees a
digit where a letter is required, positions 1-5 fall inside the word `Option`
and cannot restart it, and the tail is too short to contain it. -/
theorem searchLetter_none_of_digit {t r : Str}
    (hs : stripCI optionWord t = some r)
    (hr : (∃ d, r = [d] ∧ isDigit14 d = true) ∨
          (∃ w d, r = [w, d] ∧ isJsWhitespace w = true ∧ isDigit14 d = true)) :
    searchLetter t = none := by
  obtain ⟨c0, c1, c2, c3, c4, c5, ht, h0, h1, h2, h3, h4, h5⟩ := stripCI_optionWord_some hs
  have hw6 : optionWord = 'o' :: 'p' :: 't' :: 'i' :: 'o' :: 'n' :: [] := rfl
  subst ht
  apply searchLetter_none
  intro s hsx
  rw [List.suffix_cons_iff] at hsx
  rcases hsx with rfl | hsx
  · rcases hr with ⟨d, hrd, hd⟩ | ⟨w, d, hrd, hw, hd⟩
    · subst hrd
      simp [matchAtLetter, hs, not_ws_of_digit09 (digit09_of_digit14 hd),
        not_letterAD_of_digit14 hd]
    · subst hrd
      simp [matchAtLetter, hs, hw, not_letterAD_of_digit14 hd]
  rw [List.suffix_cons_iff] at hsx
  rcases hsx with rfl | hsx
  · apply matchAtLetter_strip_none
    rw [hw6]
    simp [stripCI, h1]
  rw [List.suffix_cons_iff] at hsx
  rcases hsx with rfl | hsx
  · apply matchAtLetter_strip_none
    rw [hw6]
    simp [stripCI, h2]
  rw [List.suffix_cons_iff] at hsx
  rcases hsx with rfl | hsx
  · apply matchAtLetter_strip_none
    rw [hw6]
    simp [stripCI, h3]
  rw [List.suffix_cons_iff] at hsx
  rcases hsx with rfl | hsx
  · apply matchAtLetter_strip_none
    rw [hw6]
    simp [stripCI, h4, h5]
  rw [List.suffix_cons_iff] at hsx
  rcases hsx with rfl | hsx
  · apply matchAtLetter_strip_none
    rw [hw6]
    simp [stripCI, h5]
  · apply matchAtLetter_strip_none
    apply stripCI_none_of_short
    have hslen := hsx.length_le
    have hrlen : r.length ≤ 2 := by
      rcases hr with ⟨d, hrd, -⟩ | ⟨w, d, hrd, -, -⟩ <;> subst hrd <;> simp
    have h6 : optionWord.length = 6 := rfl
    omega

theorem stripCI_nonempty {t r : Str} (hs : stripCI optionWord t = some r) : t ≠ [] := by
  obtain ⟨c0, c1, c2, c3, c4, c5, ht, -, -, -, -, -, -⟩ := stripCI_optionWord_some hs
  rw [ht]
  simp

/-- The guard of the labeled-option branch being true forces the shared
`correctIndex` computation to the index the claim describes. -/
theorem guards_claim_some {t : Str} {i : Nat} (h : claimLabeledIndex t = some i) :
    (fullOptionLetter t || fullOptionDigit t) = true ∧ labeledIndex t = (i : Int) := by
  unfold claimLabeledIndex at h
  cases hs : stripCI optionWord t with
  | none => rw [hs] at h; simp at h
  | some r =>
    rw [hs] at h
    have hne := stripCI_nonempty hs
    match r, h with
    | [c], h =>
      dsimp only at h
      cases hl : letterADIdx c with
      | some iL =>
        rw [hl] at h
        simp only [Option.orElse, Option.some.injEq] at h
        obtain ⟨hlet, hlo, hhi, hval⟩ := letterADIdx_eq_some hl
        constructor
        · simp [fullOptionLetter, hs, hlet]
        · have hsl := searchLetter_head hne (matchAtLetter_single hs hlet)
          simp only [labeledIndex, hsl]
          rw [← h, hval]
          omega
      | none =>
        rw [hl] at h
        simp only [Option.orElse] at h
        obtain ⟨hdig, hlo, hhi, hval⟩ := digit14Idx_eq_some h
        constructor
        · simp [fullOptionDigit, hs, hdig]
        · have hsl := searchLetter_none_of_digit hs (Or.inl ⟨c, rfl, hdig⟩)
          have hsd := searchDigit_head hne (matchAtDigit_single hs (digit09_of_digit14 hdig))
          simp only [labeledIndex, hsl, hsd]
          rw [hval]
          omega
    | [w, c], h =>
      dsimp only at h
      by_cases hw : isJsWhitespace w = true
      · rw [if_pos hw] at h
        cases hl : letterADIdx c with
        | some iL =>
          rw [hl] at h
          simp only [Option.orElse, Option.some.injEq] at h
          obtain ⟨hlet, hlo, hhi, hval⟩ := letterADIdx_eq_some hl
          constructor
          · simp [fullOptionLetter, hs, hw, hlet]
          · have hsl := searchLetter_head hne (matchAtLetter_pair hs hw hlet)
            simp only [labeledIndex, hsl]
            rw [← h, hval]
            omega
        | none =>
          rw [hl] at h
          simp only [Option.orElse] at h
          obtain ⟨hdig, hlo, hhi, hval⟩ := digit14Idx_eq_some h
          constructor
          · simp [fullOptionDigit, hs, hw, hdig]
          · have hsl := searchLetter_none_of_digit hs (Or.inr ⟨w, c, rfl, hw, hdig⟩)
            have hsd := searchDigit_head hne (matchAtDigit_pair hs hw (digit09_of_digit14 hdig))
            simp only [labeledIndex, hsl, hsd]
            rw [hval]
            omega
      · rw [if_neg hw] at h
        simp at h

/-- When the claim's labeled strategy does not apply, neither of the two
source regex guards fires. -/
theorem guards_claim_none {t : Str} (h : claimLabeledIndex t = none) :
    fullOptionLetter t = false ∧ fullOptionDigit t = false := by
  unfold claimLabeledIndex at h
  unfold fullOptionLetter fullOptionDigit
  cases hs : stripCI optionWord t with
  | none => exact ⟨rfl, rfl⟩
  | some r =>
    rw [hs] at h
    match r, h with
    | [], h => exact ⟨rfl, rfl⟩
    | [c], h =>
      dsimp only at h
      cases hl : letterADIdx c with
      | some iL => rw [hl] at h; simp at h
      | none =>
        rw [hl] at h
        simp only [Option.orElse] at h
        constructor
        · show isLetterAD c = false
          unfold isLetterAD
          rw [hl]
          rfl
        · show isDigit14 c = false
          unfold isDigit14
          rw [h]
          rfl
    | [w, c], h =>
      dsimp only at h
      by_cases hw : isJsWhitespace w = true
      · rw [if_pos hw] at h
        cases hl : letterADIdx c with
        | some iL => rw [hl] at h; simp at h
        | none =>
          rw [hl] at h
          simp only [Option.orElse] at h
          constructor
          · show (isJsWhitespace w && isLetterAD c) = false
            unfold isLetterAD
            rw [hl]
            simp
          · show (isJsWhitespace w && isDigit14 c) = false
            unfold isDigit14
            rw [h]
            simp
      · have hwf : isJsWhitespace w = false := by
          rcases Bool.eq_false_or_eq_true (isJsWhitespace w) with h' | h'
          · exact absurd h' hw
          · exact h'
        constructor
        · show (isJsWhitespace w && isLetterAD c) = false
          rw [hwf]
          rfl
        · show (isJsWhitespace w && isDigit14 c) = false
          rw [hwf]
          rfl
    | a :: b :: c' :: rest, h => exact ⟨rfl, rfl⟩

/-- The practice-page correctness check equals the claim's three-strategy
resolver on every input. -/
theorem practice_eq_resolveClaim (ca : Str) (opts : List Str) (sel : Str) :
    practiceIsCorrect ca opts sel = resolveClaim ca opts sel := by
  unfold practiceIsCorrect resolveClaim
  cases hc : claimLabeledIndex (trimJS ca) with
  | some i =>
    obtain ⟨hg, hl⟩ := guards_claim_some hc
    rw [hg, hl]
    simp only [if_true]
    have h0 : (0 : Int) ≤ (i : Int) := Int.ofNat_nonneg i
    rw [listGetI, if_neg (by omega)]
    simp [Int.toNat_ofNat, h0]
  | none =>
    obtain ⟨hgl, hgd⟩ := guards_claim_none hc
    rw [hgl, hgd]
    rfl

/-- C1: the answer resolver applies exactly the three claimed strategies in
order with the first match winning — labeled-option form (index from the
letter's uppercase code minus the code of `A`, or the digit minus 1, the
option at that index compared to the selected text byte-for-byte), bare
single letter, then trimmed case-insensitive literal equality; no match means
incorrect, and the function is total (no exception). -/
theorem c1_resolver_three_strategies (correctAnswer : Str) (options : List Str)
    (selected : Str) :
    practiceIsCorrect correctAnswer options selected
      = resolveClaim correctAnswer options selected :=
  practice_eq_resolveClaim correctAnswer options selected

/-- C9: when the labeled-option or bare-letter strategy computes an index out
of range for the options list, the resolver judges the selection incorrect
(and, being total, raises nothing). -/
theorem c9_out_of_range_index_no_match (correctAnswer : Str) (options : List Str)
    (selected : Str) :
    (∀ i, claimLabeledIndex (trimJS correctAnswer) = some i → options.length ≤ i →
      practiceIsCorrect correctAnswer options selected = false) ∧
    (∀ i, claimLabeledIndex (trimJS correctAnswer) = none →
      bareIndex? (trimJS correctAnswer) = some i → options.length ≤ i →
      practiceIsCorrect correctAnswer options selected = false) := by
  constructor
  · intro i hc hlen
    rw [practice_eq_resolveClaim]
    unfold resolveClaim
    rw [hc]
    simp [List.getElem?_eq_none hlen]
  · intro i hc hb hlen
    rw [practice_eq_resolveClaim]
    unfold resolveClaim
    rw [hc, hb]
    simp [List.getElem?_eq_none hlen]

/-- C9 witness: `Option D` against a two-option list is judged incorrect. -/
theorem c9_out_of_range_index_no_match_witness :
    practiceIsCorrect (str "Option D") [str "x", str "y"] (str "y") = false :=
  (c9_out_of_range_index_no_match (str "Option D") [str "x", str "y"] (str "y")).1
    3 (by decide) (by decide)

theorem jsIndexOfAux_mem (x : Str) :
    ∀ (l : List Str) (k : Nat), x ∈ l →
      ∃ j : Nat, jsIndexOfAux l x k = ((k + j : Nat) : Int) ∧ l.get? j = some x := by
  intro l
  induction l with
  | nil => intro k h; simp at h
  | cons a rest ih =>
    intro k hmem
    unfold jsIndexOfAux
    by_cases ha : a = x
    · refine ⟨0, ?_, ?_⟩
      · rw [if_pos ha]
        norm_num
      · simp [ha]
    · rw [if_neg ha]
      rcases List.mem_cons.mp hmem with h | h
      · exact absurd h.symm ha
      · obtain ⟨j, hj, hget⟩ := ih (k + 1) h
        refine ⟨j + 1, ?_, by simpa using hget⟩
        rw [hj]
        congr 1
        omega

theorem jsIndexOf_mem {l : List Str} {x : Str} (h : x ∈ l) :
    ∃ j : Nat, jsIndexOf l x = (j : Int) ∧ l.get? j = some x := by
  obtain ⟨j, hj, hget⟩ := jsIndexOfAux_mem x l 0 h
  exact ⟨j, by simpa using hj, hget⟩

theorem jsIndexOfAux_nodup (x : Str) :
    ∀ (l : List Str) (k j : Nat), l.Nodup → l.get? j = some x →
      jsIndexOfAux l x k = ((k + j : Nat) : Int) := by
  intro l
  induction l with
  | nil => intro k j hnd hget; simp at hget
  | cons a rest ih =>
    intro k j hnd hget
    unfold jsIndexOfAux
    cases j with
    | zero =>
      have ha : a = x := by simpa using hget
      rw [if_pos ha]
      norm_num
    | succ j' =>
      have hget' : rest.get? j' = some x := by simpa using hget
      have hax : a ≠ x := by
        intro he
        have hx : x ∈ rest := List.get?_mem hget'
        rw [he] at hnd
        exact (List.nodup_cons.mp hnd).1 hx
      rw [if_neg hax, ih (k + 1) j' (List.nodup_cons.mp hnd).2 hget']
      congr 1
      omega

theorem jsIndexOf_nodup {l : List Str} {x : Str} {j : Nat} (hnd : l.Nodup)
    (hget : l.get? j = some x) : jsIndexOf l x = (j : Int) := by
  unfold jsIndexOf
  rw [jsIndexOfAux_nodup x l 0 j hnd hget]
  norm_num

/-- C10: the question card's `isOptionCorrect`-based check of the selected
option and the practice page's stats check agree whenever the options list has
no duplicate entries and the selected text is one of the options. -/
theorem c10_card_and_practice_agree (correctAnswer selected : Str)
    (options : List Str) (hnd : options.Nodup) (hmem : selected ∈ options) :
    isSelectedCorrect correctAnswer options selected
      = practiceIsCorrect correctAnswer options selected := by
  obtain ⟨j, hj, hget⟩ := jsIndexOf_mem hmem
  have hiff : ∀ i : Nat,
      (jsIndexOf options selected = (i : Int)) ↔ (options.get? i = some selected) := by
    intro i
    constructor
    · intro he
      have hji : j = i := by
        rw [hj] at he
        exact_mod_cast he
      rwa [← hji]
    · intro hg2
      exact jsIndexOf_nodup hnd hg2
  rw [practice_eq_resolveClaim]
  unfold isSelectedCorrect isOptionCorrect resolveClaim
  cases hc : claimLabeledIndex (trimJS correctAnswer) with
  | some i =>
    obtain ⟨hg, hl⟩ := guards_claim_some hc
    rw [hg]
    simp only [if_true]
    rw [hl]
    exact decide_eq_decide.mpr (hiff i)
  | none =>
    obtain ⟨hgl, hgd⟩ := guards_claim_none hc
    rw [hgl, hgd]
    simp only [Bool.or_self, Bool.false_or, if_false]
    cases hb : bareIndex? (trimJS correctAnswer) with
    | some i => exact decide_eq_decide.mpr (hiff i)
    | none => rfl

/-- C10 witness at a concrete duplicate-free question. -/
theorem c10_card_and_practice_agree_witness :
    isSelectedCorrect (str "B") [str "x", str "y"] (str "y")
      = practiceIsCorrect (str "B") [str "x", str "y"] (str "y") :=
  c10_card_and_practice_agree (str "B") (str "y") [str "x", str "y"]
    (by decide) (by decide)

/-! ## JSON extractor lemmas (claims C7, C2 support) -/

theorem idxOfCharAux_spec (c : Char) :
    ∀ (s : Str) (k : Nat),
      (idxOfCharAux s c k = -1 ∧ c ∉ s) ∨
      (∃ n : Nat, idxOfCharAux s c k = ((k + n : Nat) : Int) ∧ s.get? n = some c ∧
        ∀ j, j < n → s.get? j ≠ some c) := by
  intro s
  induction s with
  | nil => intro k; exact Or.inl ⟨rfl, by simp⟩
  | cons a rest ih =>
    intro k
    unfold idxOfCharAux
    by_cases ha : a = c
    · right
      refine ⟨0, ?_, by simp [ha], fun j hj => absurd hj (Nat.not_lt_zero j)⟩
      rw [if_pos ha]
      norm_num
    · rw [if_neg ha]
      rcases ih (k + 1) with ⟨h1, h2⟩ | ⟨n, h1, h2, h3⟩
      · refine Or.inl ⟨h1, fun hmem => ?_⟩
        rcases List.mem_cons.mp hmem with hx | hx
        · exact ha hx.symm
        · exact h2 hx
      · right
        refine ⟨n + 1, ?_, by simpa using h2, ?_⟩
        · rw [h1]
          congr 1
          omega
        · intro j hj
          cases j with
          | zero => simpa using ha
          | succ j' =>
            have := h3 j' (by omega)
            simpa using this

theorem idxOfChar_spec (s : Str) (c : Char) :
    (idxOfChar s c = -1 ∧ c ∉ s) ∨
    (∃ n : Nat, idxOfChar s c = (n : Int) ∧ s.get? n = some c ∧
      ∀ j, j < n → s.get? j ≠ some c) := by
  rcases idxOfCharAux_spec c s 0 with ⟨h1, h2⟩ | ⟨n, h1, h2, h3⟩
  · exact Or.inl ⟨h1, h2⟩
  · exact Or.inr ⟨n, by simpa using h1, h2, h3⟩

theorem lastIdxOfChar_spec (s : Str) (c : Char) :
    (lastIdxOfChar s c = -1 ∧ c ∉ s) ∨
    (∃ m : Nat, lastIdxOfChar s c = (m : Int) ∧ s.get? m = some c ∧
      ∀ j, m < j → s.get? j ≠ some c) := by
  unfold lastIdxOfChar
  rcases idxOfChar_spec s.reverse c with ⟨h1, h2⟩ | ⟨n, h1, h2, h3⟩
  · left
    rw [h1]
    exact ⟨if_pos rfl, fun hmem => h2 (List.mem_reverse.mpr hmem)⟩
  · right
    have hn : n < s.length := by
      by_contra hcon
      rw [List.get?_eq_none.mpr (by simpa using Nat.le_of_not_lt hcon)] at h2
      exact Option.noConfusion h2
    refine ⟨s.length - 1 - n, ?_, ?_, ?_⟩
    · rw [h1, if_neg (by omega)]
      omega
    · have := List.getElem?_reverse' n (s.length - 1 - n) (by omega) (l := s)
      rw [← List.get?_eq_getElem?, ← List.get?_eq_getElem?] at this
      rw [← this]
      exact h2
    · intro j hj hcon
      have hjlen : j < s.length := by
        by_contra hcon2
        rw [List.get?_eq_none.mpr (by simpa using Nat.le_of_not_lt hcon2)] at hcon
        exact Option.noConfusion hcon
      have hidx : s.length - 1 - j < n := by omega
      apply h3 (s.length - 1 - j) hidx
      have := List.getElem?_reverse' (s.length - 1 - j) j (by omega) (l := s)
      rw [← List.get?_eq_getElem?, ← List.get?_eq_getElem?] at this
      rw [this]
      exact hcon

theorem bracesOk_iff (s : Str) :
    bracesOk s = true ↔
      ∃ i j : Nat, i < j ∧ s.get? i = some '\x7b' ∧ s.get? j = some '\x7d' := by
  unfold bracesOk
  constructor
  · intro h
    simp only [Bool.not_eq_true', Bool.or_eq_false_iff, decide_eq_false_iff_not] at h
    obtain ⟨⟨hfb, hlb⟩, hlt⟩ := h
    rcases idxOfChar_spec s '\x7b' with ⟨h1, -⟩ | ⟨n, h1, h2, -⟩
    · exact absurd h1 hfb
    · rcases lastIdxOfChar_spec s '\x7d' with ⟨h1', -⟩ | ⟨m, h1', h2', -⟩
      · exact absurd h1' hlb
      · refine ⟨n, m, ?_, h2, h2'⟩
        rw [h1, h1'] at hlt
        omega
  · intro ⟨i, j, hij, hi, hj⟩
    simp only [Bool.not_eq_true', Bool.or_eq_false_iff, decide_eq_false_iff_not]
    rcases idxOfChar_spec s '\x7b' with ⟨-, h2⟩ | ⟨n, h1, -, h3⟩
    · exact absurd (List.get?_mem hi) h2
    · rcases lastIdxOfChar_spec s '\x7d' with ⟨-, h2'⟩ | ⟨m, h1', -, h3'⟩
      · exact absurd (List.get?_mem hj) h2'
      · have hni : n ≤ i := by
          by_contra hcon
          exact h3 i (Nat.lt_of_not_le hcon) hi
        have hjm : j ≤ m := by
          by_contra hcon
          exact h3' j (Nat.lt_of_not_le hcon) hj
        rw [h1, h1']
        refine ⟨⟨by omega, by omega⟩, by omega⟩

theorem sliced_decomposition (s : Str) (h : bracesOk s = true) :
    ∃ pre post, s = pre ++ slicedOf s ++ post ∧
      pre.length = (idxOfChar s '\x7b').toNat ∧
      (slicedOf s).length =
        (lastIdxOfChar s '\x7d').toNat + 1 - (idxOfChar s '\x7b').toNat := by
  unfold bracesOk at h
  simp only [Bool.not_eq_true', Bool.or_eq_false_iff, decide_eq_false_iff_not] at h
  obtain ⟨⟨hfb, hlb⟩, hlt⟩ := h
  rcases idxOfChar_spec s '\x7b' with ⟨h1, -⟩ | ⟨n, h1, h2, -⟩
  · exact absurd h1 hfb
  rcases lastIdxOfChar_spec s '\x7d' with ⟨h1', -⟩ | ⟨m, h1', h2', -⟩
  · exact absurd h1' hlb
  have hnm : n < m := by
    rw [h1, h1'] at hlt
    omega
  have hmlen : m < s.length := by
    by_contra hcon
    rw [List.get?_eq_none.mpr (by simpa using Nat.le_of_not_lt hcon)] at h2'
    exact Option.noConfusion h2'
  unfold slicedOf
  rw [h1, h1']
  simp only [Int.toNat_ofNat]
  refine ⟨s.take n, (s.drop n).drop (m + 1 - n), ?_, ?_, ?_⟩
  · conv_lhs => rw [← List.take_append_drop n s]
    rw [List.append_assoc]
    congr 1
    rw [List.take_append_drop]
  · rw [List.length_take]
    omega
  · rw [List.length_take, List.length_drop]
    omega

/-- C7: the extractor pipeline — after trimming and fence-stripping, a missing
or non-crossing brace pair fails with `MalformedResponse` carrying the original
text's first 200 characters; the brace test succeeds exactly when some `{`
occurs strictly before some `}`; on success the processed text splits around
the inclusive first-to-last-brace slice, whose trailing commas are removed
before parsing; a parse failure is `MalformedResponse` (with a 150-character
excerpt), and a parsed value without a sequence-valued `questions` field is
`InvalidShape`. -/
theorem c7_extractor_pipeline (parse : Str → Option Json) (text : Str) :
    (bracesOk (extractStage text) = false →
      ocrExtract parse text = .malformed (text.take 200)) ∧
    (bracesOk (extractStage text) = true ↔
      ∃ i j : Nat, i < j ∧ (extractStage text).get? i = some '\x7b' ∧
        (extractStage text).get? j = some '\x7d') ∧
    (bracesOk (extractStage text) = true →
      (∃ pre post, extractStage text = pre ++ slicedOf (extractStage text) ++ post ∧
        pre.length = (idxOfChar (extractStage text) '\x7b').toNat ∧
        (slicedOf (extractStage text)).length =
          (lastIdxOfChar (extractStage text) '\x7d').toNat + 1
            - (idxOfChar (extractStage text) '\x7b').toNat) ∧
      (parse (removeTrailingCommas (slicedOf (extractStage text))) = none →
        ocrExtract parse text = .malformed (text.take 150)) ∧
      (∀ v, parse (removeTrailingCommas (slicedOf (extractStage text))) = some v →
        (∀ l, jsonField v (str "questions") ≠ some (Json.arr l)) →
        ocrExtract parse text = .invalidShape)) := by
  refine ⟨?_, bracesOk_iff (extractStage text), ?_⟩
  · intro h
    unfold ocrExtract
    rw [h]
    rfl
  · intro h
    refine ⟨sliced_decomposition (extractStage text) h, ?_, ?_⟩
    · intro hp
      unfold ocrExtract
      rw [h, hp]
      rfl
    · intro v hp hq
      unfold ocrExtract
      rw [h, hp]
      dsimp only
      cases hf : jsonField v (str "questions") with
      | none => rfl
      | some jv =>
        cases jv with
        | arr l => exact absurd hf (hq l)
        | null => rfl
        | bool b => rfl
        | num n => rfl
        | jstr s2 => rfl
        | obj fields => rfl

/-- C7 witness: a braceless response fails with the 200-character excerpt. -/
theorem c7_extractor_pipeline_witness :
    ocrExtract (fun _ => none) (str "no json here")
      = OcrOutcome.malformed ((str "no json here").take 200) :=
  (c7_extractor_pipeline (fun _ => none) (str "no json here")).1 (by decide)

/-! ## Empty questions outcome (claim C2) -/

/-- C2 counterexample: on a successfully parsed payload whose `questions`
field is the empty sequence, the handler does not return a valid-but-empty
result to the caller — it answers with the dedicated empty-questions branch,
an HTTP 400 error response, never the success outcome. -/
theorem c2_empty_questions_counterexample :
    ocrExtract emptyQuestionsParse emptyQuestionsText = OcrOutcome.emptyQuestions ∧
    ocrStatus (ocrExtract emptyQuestionsParse emptyQuestionsText) = 400 ∧
    ∀ v, ocrExtract emptyQuestionsParse emptyQuestionsText ≠ OcrOutcome.success v := by
  refine ⟨rfl, rfl, ?_⟩
  intro v h
  have h2 : OcrOutcome.emptyQuestions = OcrOutcome.success v := h
  exact OcrOutcome.noConfusion h2

/-- C2 (amended): a successfully parsed payload whose `questions` field is an
empty sequence is answered with the dedicated `EmptyQuestions` HTTP 400 error
(the `[DEBUG] Empty questions` branch), an outcome distinct from
`MalformedResponse` and `InvalidShape` — but a failure, not a valid-but-empty
result. -/
theorem c2_empty_questions_distinct_error (parse : Str → Option Json) (text : Str)
    (v : Json) (hok : bracesOk (extractStage text) = true)
    (hp : parse (removeTrailingCommas (slicedOf (extractStage text))) = some v)
    (hq : jsonField v (str "questions") = some (Json.arr [])) :
    ocrExtract parse text = OcrOutcome.emptyQuestions ∧
    ocrStatus (ocrExtract parse text) = 400 ∧
    (∀ e, OcrOutcome.emptyQuestions ≠ OcrOutcome.malformed e) ∧
    OcrOutcome.emptyQuestions ≠ OcrOutcome.invalidShape := by
  have hmain : ocrExtract parse text = OcrOutcome.emptyQuestions := by
    unfold ocrExtract
    rw [hok, hp]
    dsimp only
    rw [hq]
    rfl
  exact ⟨hmain, by rw [hmain]; rfl,
    fun e h => OcrOutcome.noConfusion h,
    fun h => OcrOutcome.noConfusion h⟩

/-- C2 (amended) witness at the concrete empty-questions payload. -/
theorem c2_empty_questions_distinct_error_witness :
    ocrExtract emptyQuestionsParse emptyQuestionsText = OcrOutcome.emptyQuestions :=
  (c2_empty_questions_distinct_error emptyQuestionsParse emptyQuestionsText
    (Json.obj [(str "questions", Json.arr [])]) rfl rfl rfl).1

end S2P
